import Mathlib

/-!
Verification of the document-synchronization and embedding-manifest subsystem of
the K-ETS_Dashboard repository (`agent/doc_agent.py`, with a duplicated copy of
`EmbeddingManifestManager` in `app/services/document_service.py`).

The embedding below is a shallow model of the Python source:

* Python dicts are modelled as association lists (`List (String × _)`) with
  Python's insertion-order semantics: assignment to an existing key updates the
  entry in place, assignment to a fresh key appends at the end.
* `json.load` results are modelled by `PyJson`; a file on disk is a
  `FileContent` (missing / malformed JSON / parsed value).
* The side effects of one `_synchronize_documents` pass (Pinecone delete calls,
  chunk upserts, manifest writes) are modelled as an explicit event trace; an
  uncaught Python exception during the embed loop is modelled by the `aborted`
  flag of `SyncResult` (the raised exception propagates out of the pass, so the
  events after the raise never happen).
* External collaborators (SHA-256 hashing of file contents, the Upstage parse
  API, Pinecone upload success) are oracles carried in `SyncEnv`, since the
  source calls them through thin synchronous wrappers.
-/

namespace KETS

/-! ## Association lists with Python-dict semantics -/

/-- Python dict `d.get(k)`: value of the first (unique, for real dicts)
entry with key `k`. -/
def assoc {α : Type} (k : String) : List (String × α) → Option α
  | [] => none
  | (k₁, v) :: rest => if k = k₁ then some v else assoc k rest

/-- Python dict assignment `d[k] = v`: update the existing entry in place (keeping
its position), or append a new entry at the end. -/
def setAssoc {α : Type} (k : String) (v : α) : List (String × α) → List (String × α)
  | [] => [(k, v)]
  | (k₁, v₁) :: rest => if k = k₁ then (k, v) :: rest else (k₁, v₁) :: setAssoc k v rest

/-- Python dict `d.pop(k, None)`: drop the entry with key `k`, if any. -/
def popAssoc {α : Type} (k : String) : List (String × α) → List (String × α)
  | [] => []
  | (k₁, v₁) :: rest => if k = k₁ then rest else (k₁, v₁) :: popAssoc k rest


/-! ## JSON-level model of `EmbeddingManifestManager._load_manifest`

`_load_manifest` works on the raw `json.load` result before any structure is
guaranteed.  For the branches the source takes, only two shapes matter: a JSON
object (a Python dict) and any non-dict value. -/

/-- A parsed JSON value as `json.load` returns it: an object, or any non-object
value (string, number, list, …) collapsed into `leaf` with its rendering.  The
source only ever asks `isinstance(v, dict)`, so this distinction is the one
that drives control flow. -/
inductive PyJson : Type
  | dict (fields : List (String × PyJson))
  | leaf (s : String)

/-- What the manifest file on disk can look like to `_load_manifest`. -/
inductive FileContent : Type
  | missing
  | unparseable
  | parsed (j : PyJson)

/-- The fresh manifest `{self.index_name: {}}` returned for a missing or
corrupt manifest file. -/
def freshManifest (idx : String) : List (String × PyJson) := [(idx, PyJson.dict [])]

/-- Model of `EmbeddingManifestManager._load_manifest` (doc_agent.py lines 79-102; the
copy in document_service.py lines 91-114 is identical).  Returns the loaded
in-memory manifest together with the list of manifests passed to `self.save`
during loading (the legacy migration persists immediately).  An `Except.error`
models an uncaught Python exception: a top-level JSON value that is valid JSON
but not a dict escapes the `except (json.JSONDecodeError, IndexError)` clause
(`list(data.values())` raises `AttributeError`, or the `in` / item-assignment
raises `TypeError`). -/
def loadManifest (content : FileContent) (idx : String) :
    Except String (List (String × PyJson) × List (List (String × PyJson))) :=
  match content with
  | .missing => .ok (freshManifest idx, [])
  | .unparseable => .ok (freshManifest idx, [])
  | .parsed (PyJson.leaf _) => .error "uncaught AttributeError or TypeError"
  | .parsed (PyJson.dict fields) =>
    match fields with
    | [] =>
      -- `data` is falsy: no migration; `idx` is absent, so an empty
      -- sub-mapping is added in place.
      .ok (setAssoc idx (PyJson.dict []) [], [])
    | (k₀, v₀) :: rest =>
      match v₀ with
      | PyJson.leaf _ =>
        -- legacy flat schema: first value is not a dict.  The dict literal
        -- `{"carbon-rag": data, self.index_name: {}}` is built left to right
        -- with later duplicate keys overwriting earlier ones.
        let migrated :=
          setAssoc idx (PyJson.dict [])
            (setAssoc "carbon-rag" (PyJson.dict ((k₀, v₀) :: rest)) [])
        .ok (migrated, [migrated])
      | PyJson.dict _ =>
        match assoc idx ((k₀, v₀) :: rest) with
        | some _ => .ok ((k₀, v₀) :: rest, [])
        | none => .ok (setAssoc idx (PyJson.dict []) ((k₀, v₀) :: rest), [])

/-! ## File-map level model of the manifest and its operations

Once loaded, the manifest used by a sync pass is (for the active index) a dict
from file path to fingerprint.  `FileMap` and `Manifest` model that level. -/

/-- One index's sub-mapping: file path to content fingerprint. -/
abbrev FileMap := List (String × String)

/-- The whole manifest: index name to sub-mapping. -/
abbrev Manifest := List (String × FileMap)

/-- Model of `self.manifest.get(self.index_name, ...)` with its empty-dict
default. -/
def getSub (m : Manifest) (idx : String) : FileMap := (assoc idx m).getD []

/-- Model of `EmbeddingManifestManager.get_file_hash` (lines 111-113). -/
def getFileHash (m : Manifest) (idx fp : String) : Option String := assoc fp (getSub m idx)

/-- Model of `EmbeddingManifestManager.get_processed_files` (lines 121-123): the keys of
the active index's sub-mapping. -/
def getProcessedFiles (m : Manifest) (idx : String) : List String :=
  (getSub m idx).map Prod.fst

/-- Model of `EmbeddingManifestManager.update_file_hash` (lines 115-119): create the
sub-mapping if absent, then assign `manifest[idx][fp] = h`. -/
def updateFileHash (m : Manifest) (idx fp h : String) : Manifest :=
  match assoc idx m with
  | none => setAssoc idx [(fp, h)] m
  | some fm => setAssoc idx (setAssoc fp h fm) m

/-- Model of `EmbeddingManifestManager.remove_files` (lines 125-129): pop each listed
path from the active index's sub-mapping, if that sub-mapping exists. -/
def removeFiles (m : Manifest) (idx : String) (fps : List String) : Manifest :=
  match assoc idx m with
  | none => m
  | some fm => setAssoc idx (fps.foldl (fun acc p => popAssoc p acc) fm) m

/-- The inconsistency-repair reset
`self.manifest_manager.manifest[self.index_name] = {}` (line 363). -/
def resetIndex (m : Manifest) (idx : String) : Manifest := setAssoc idx [] m

/-! ## One synchronization pass (`DocumentRAGAgent._synchronize_documents`)

The observable side effects of a pass are collected in an event trace. -/

/-- An observable external effect of a sync pass. -/
inductive SyncEvent : Type
  | deleteByFilename (names : List String)
  | upsert (filename : String)
  | saveManifest (m : Manifest)
deriving DecidableEq

/-- The oracles a pass consults: the directory scan, the SHA-256 content hash
of each path, the `describe_index_stats` outcome (total vector count, or a
raised exception), the Upstage parse result for each path (the empty string
models a parse that produced no content, as `_parse_pdf_with_upstage` returns
`""` on failure), and whether `add_documents` succeeds for a given file. -/
structure SyncEnv : Type where
  onDisk : List String
  diskHash : String → String
  stats : Except String Nat
  parse : String → String
  uploadOk : String → Bool

/-- The three change sets computed by the DIFF step. -/
structure SyncPlan : Type where
  newFiles : List String
  modified : List String
  deleted : List String
deriving DecidableEq

/-- The DIFF step (lines 368-377): `new`, `modified` and `deleted` computed
from the manifest's recorded file set and the on-disk scan. -/
def computeDiffL (m : Manifest) (idx : String) (onDisk : List String)
    (diskHash : String → String) : SyncPlan :=
  let processed := getProcessedFiles m idx
  { newFiles := onDisk.filter fun p => decide (p ∉ processed)
    modified := processed.filter fun p =>
      decide (p ∈ onDisk ∧ getFileHash m idx p ≠ some (diskHash p))
    deleted := processed.filter fun p => decide (p ∉ onDisk) }

/-- The INCONSISTENCY_CHECK step (lines 354-366): if the manifest records at
least one processed file but the index reports zero vectors, reset the active
index's sub-mapping and save immediately; if the stats query raised, log and
continue with the manifest as loaded. -/
def inconsistencyCheck (m : Manifest) (idx : String) (stats : Except String Nat) :
    Manifest × List SyncEvent :=
  match stats with
  | .ok count =>
    if getProcessedFiles m idx ≠ [] ∧ count = 0 then
      let m' := resetIndex m idx
      (m', [SyncEvent.saveManifest m'])
    else (m, [])
  | .error _ => (m, [])

/-- Model of `os.path.basename`: the part after the last path separator. -/
def baseName (s : String) : String :=
  String.mk ((s.data.reverse.takeWhile fun c => decide (c ≠ '/')).reverse)

/-- The result of a pass: the event trace, the final in-memory manifest, and
whether the pass was aborted by an uncaught exception. -/
structure SyncResult : Type where
  trace : List SyncEvent
  manifest : Manifest
  aborted : Bool
deriving DecidableEq

/-- The EMBED loop (lines 395-411).  A file whose parse yields empty content is
skipped (`continue`); a successful file's chunks are upserted and its fresh
hash recorded in the in-memory manifest; an exception from `add_documents` is
not caught, so it aborts the loop (and the pass) on the spot. -/
def embedLoop (env : SyncEnv) (idx : String) :
    List String → Manifest → List SyncEvent × Manifest × Bool
  | [], m => ([], m, false)
  | f :: rest, m =>
    if env.parse f = "" then embedLoop env idx rest m
    else if env.uploadOk f then
      let m' := updateFileHash m idx f (env.diskHash f)
      let r := embedLoop env idx rest m'
      (SyncEvent.upsert (baseName f) :: r.1, r.2)
    else ([], m, true)

/-- Steps 2-6 of `_synchronize_documents` (lines 368-415), after the
inconsistency check produced manifest `m₁` and events `tr₁`:
diff, early return when nothing changed, delete-by-basename for
`modified ++ deleted`, manifest removal of `deleted`, the embed loop, and the
final save (skipped when the embed loop raised). -/
def passRest (m₁ : Manifest) (tr₁ : List SyncEvent) (idx : String) (env : SyncEnv) :
    SyncResult :=
  let plan := computeDiffL m₁ idx env.onDisk env.diskHash
  let toReEmbed := plan.newFiles ++ plan.modified
  let toDeleteDb := plan.modified ++ plan.deleted
  if toReEmbed = [] ∧ toDeleteDb = [] then
    { trace := tr₁, manifest := m₁, aborted := false }
  else
    let tr₂ := if toDeleteDb = [] then []
      else [SyncEvent.deleteByFilename (toDeleteDb.map baseName)]
    let m₂ := if plan.deleted = [] then m₁ else removeFiles m₁ idx plan.deleted
    let r := embedLoop env idx toReEmbed m₂
    if r.2.2 then
      { trace := tr₁ ++ tr₂ ++ r.1, manifest := r.2.1, aborted := true }
    else
      { trace := tr₁ ++ tr₂ ++ r.1 ++ [SyncEvent.saveManifest r.2.1],
        manifest := r.2.1, aborted := false }

/-- One full `_synchronize_documents` pass (lines 345-415). -/
def syncPass (m₀ : Manifest) (idx : String) (env : SyncEnv) : SyncResult :=
  let c := inconsistencyCheck m₀ idx env.stats
  passRest c.1 c.2 idx env

/-! ## The text-cleaning transform (`DocumentRAGAgent._clean_text`, lines 276-300)

`_clean_text` applies four `re.sub` passes in order:

1. remove `\[(그림|표|Figure|Table)\s*[\d\.-]+\]`
2. remove `(페이지|Page)\s+\d+`
3. remove `\.{5,}`
4. collapse `\s+` to a single space, then `strip()`

All four regexes are deterministic (each quantified character class is
disjoint from what may legally follow it), so each `re.sub` is faithfully
modelled by a left-to-right scan with maximal-munch matching that emits
unmatched characters and never rescans emitted output. -/

/-- Python's `\s` (ASCII range, which is all the source's documents use). -/
def isSpc (c : Char) : Bool :=
  c = ' ' || c = '\t' || c = '\n' || c = '\x0d' || c = '\x0b' || c = '\x0c'

/-- The character class `[\d\.-]` of the reference-tag regex. -/
def isRefChar (c : Char) : Bool := c.isDigit || c = '.' || c = '-'

/-- Match a literal character sequence, returning the remainder. -/
def dropLit : List Char → List Char → Option (List Char)
  | [], cs => some cs
  | _ :: _, [] => none
  | l :: ls, c :: cs => if c = l then dropLit ls cs else none

/-- Matcher for `X+` where `X` is a character class followed by something disjoint from it:
require one class character, then munch the rest of the run. -/
def plusClass (p : Char → Bool) : List Char → Option (List Char)
  | [] => none
  | c :: rest => if p c then some (rest.dropWhile p) else none

/-- The alternation `(그림|표|Figure|Table)`. -/
def dropTagKw (cs : List Char) : Option (List Char) :=
  match dropLit ("그림".data) cs with
  | some r => some r
  | none =>
    match dropLit ("표".data) cs with
    | some r => some r
    | none =>
      match dropLit ("Figure".data) cs with
      | some r => some r
      | none => dropLit ("Table".data) cs

/-- Match `\[(그림|표|Figure|Table)\s*[\d\.-]+\]` at the head of the list,
returning the remainder after the match. -/
def tagM : List Char → Option (List Char)
  | '[' :: rest =>
    match dropTagKw rest with
    | none => none
    | some r₁ =>
      match plusClass isRefChar (r₁.dropWhile isSpc) with
      | none => none
      | some r₃ =>
        match r₃ with
        | ']' :: r₄ => some r₄
        | _ => none
  | _ => none

/-- The alternation `(페이지|Page)`. -/
def dropPageKw (cs : List Char) : Option (List Char) :=
  match dropLit ("페이지".data) cs with
  | some r => some r
  | none => dropLit ("Page".data) cs

/-- Match `(페이지|Page)\s+\d+` at the head of the list. -/
def pageM (cs : List Char) : Option (List Char) :=
  match dropPageKw cs with
  | none => none
  | some r₁ =>
    match r₁ with
    | [] => none
    | c :: r₂ =>
      if isSpc c then
        match r₂.dropWhile isSpc with
        | [] => none
        | d :: r₄ => if d.isDigit then some (r₄.dropWhile Char.isDigit) else none
      else none

/-- Match `\.{5,}` (a maximal run of at least five dots) at the head. -/
def dotsM (cs : List Char) : Option (List Char) :=
  let run := cs.takeWhile fun c => decide (c = '.')
  if 5 ≤ run.length then some (cs.drop run.length) else none

/-- Model of `re.sub(pattern, '', text)` for a never-empty match: scan left to right,
replace each match by nothing, emit unmatched characters, never rescan the
output.  Fuel is the input length; every matcher above consumes at least one
character, so the fuel suffices. -/
def subAllAux (f : List Char → Option (List Char)) : Nat → List Char → List Char
  | 0, _ => []
  | _ + 1, [] => []
  | fuel + 1, c :: cs =>
    match f (c :: cs) with
    | some rest => subAllAux f fuel rest
    | none => c :: subAllAux f fuel cs

def subAll (f : List Char → Option (List Char)) (cs : List Char) : List Char :=
  subAllAux f cs.length cs

/-- Whether `re.search` would find a match somewhere in the list. -/
def hasMatch (f : List Char → Option (List Char)) : List Char → Bool
  | [] => false
  | c :: cs => (f (c :: cs)).isSome || hasMatch f cs

/-- Model of `re.sub(r'\s+', ' ', text)`: replace each maximal whitespace run with one
space.  The flag records whether the previous character was whitespace. -/
def collapseAux : Bool → List Char → List Char
  | _, [] => []
  | prev, c :: cs =>
    if isSpc c then
      if prev then collapseAux true cs else ' ' :: collapseAux true cs
    else c :: collapseAux false cs

/-- Remove trailing whitespace (the right half of `str.strip()`). -/
def dropTrailingSpc : List Char → List Char
  | [] => []
  | c :: cs =>
    match dropTrailingSpc cs with
    | [] => if isSpc c then [] else [c]
    | rest => c :: rest

/-- Model of `str.strip()`: leading then trailing whitespace removed. -/
def stripChars (cs : List Char) : List Char := dropTrailingSpc (cs.dropWhile isSpc)

/-- Model of `DocumentRAGAgent._clean_text` on the character-list level. -/
def cleanList (cs : List Char) : List Char :=
  stripChars (collapseAux false (subAll dotsM (subAll pageM (subAll tagM cs))))

/-- Model of `DocumentRAGAgent._clean_text`. -/
def cleanText (s : String) : String := String.mk (cleanList s.data)

/-- No two adjacent whitespace characters (an invariant of collapsed text). -/
def noDoubleSpace : List Char → Bool
  | c₁ :: c₂ :: cs => !(isSpc c₁ && isSpc c₂) && noDoubleSpace (c₂ :: cs)
  | _ => true

/-- Every whitespace character is a plain blank. -/
def spacesAreBlanks (cs : List Char) : Bool := cs.all fun c => !isSpc c || c == ' '

/-- The head, if any, is not whitespace. -/
def headNotSpc : List Char → Bool
  | [] => true
  | c :: _ => !isSpc c

/-! ## Helper lemmas -/

@[simp] theorem assoc_nil {α : Type} (k : String) : assoc (α := α) k [] = none := rfl

theorem assoc_setAssoc_self {α : Type} (k : String) (v : α) (l : List (String × α)) :
    assoc k (setAssoc k v l) = some v := by
  induction l with
  | nil => simp [assoc, setAssoc]
  | cons hd tl ih =>
    obtain ⟨k₁, v₁⟩ := hd
    by_cases h : k = k₁
    · simp [assoc, setAssoc, h]
    · simp [assoc, setAssoc, h, ih]

theorem assoc_setAssoc_other {α : Type} {k k' : String} (h : k' ≠ k) (v : α)
    (l : List (String × α)) : assoc k' (setAssoc k v l) = assoc k' l := by
  induction l with
  | nil => simp [assoc, setAssoc, h]
  | cons hd tl ih =>
    obtain ⟨k₁, v₁⟩ := hd
    by_cases hk : k = k₁
    · subst hk
      simp [assoc, setAssoc, h]
    · simp only [setAssoc, if_neg hk, assoc]
      by_cases hk' : k' = k₁
      · simp [hk']
      · simp [hk', ih]

theorem assoc_popAssoc_other {α : Type} {k k' : String} (h : k' ≠ k)
    (l : List (String × α)) : assoc k' (popAssoc k l) = assoc k' l := by
  induction l with
  | nil => simp [popAssoc]
  | cons hd tl ih =>
    obtain ⟨k₁, v₁⟩ := hd
    by_cases hk : k = k₁
    · subst hk
      simp [popAssoc, assoc, h]
    · simp only [popAssoc, if_neg hk, assoc]
      by_cases hk' : k' = k₁
      · simp [hk']
      · simp [hk', ih]

/-- Membership of a key among the keys of `setAssoc`. -/
theorem mem_keys_setAssoc {α : Type} (k p : String) (v : α) (l : List (String × α)) :
    p ∈ (setAssoc k v l).map Prod.fst ↔ p ∈ l.map Prod.fst ∨ p = k := by
  induction l with
  | nil => simp [setAssoc]
  | cons hd tl ih =>
    obtain ⟨k₁, v₁⟩ := hd
    by_cases hk : k = k₁
    · subst hk
      simp [setAssoc]
      tauto
    · simp [setAssoc, hk, ih]
      tauto

/-- Keys other than `k` survive `popAssoc k`. -/
theorem mem_keys_popAssoc_of_ne {α : Type} {p k : String} (h : p ≠ k)
    (l : List (String × α)) : p ∈ (popAssoc k l).map Prod.fst ↔ p ∈ l.map Prod.fst := by
  induction l with
  | nil => simp [popAssoc]
  | cons hd tl ih =>
    obtain ⟨k₁, v₁⟩ := hd
    by_cases hk : k = k₁
    · subst hk
      simp [popAssoc, h]
    · simp [popAssoc, hk, ih]

theorem keys_popAssoc_sub {α : Type} (k p : String) (l : List (String × α)) :
    p ∈ (popAssoc k l).map Prod.fst → p ∈ l.map Prod.fst := by
  induction l with
  | nil => simp [popAssoc]
  | cons hd tl ih =>
    obtain ⟨k₁, v₁⟩ := hd
    by_cases hk : k = k₁
    · subst hk
      simp [popAssoc]
      tauto
    · simp only [popAssoc, if_neg hk, List.map_cons, List.mem_cons]
      rintro (h | h)
      · exact Or.inl h
      · exact Or.inr (ih h)

/-- Under unique keys, `popAssoc k` really deletes the key `k`. -/
theorem not_mem_keys_popAssoc_self {α : Type} (k : String) (l : List (String × α))
    (hnd : (l.map Prod.fst).Nodup) : k ∉ (popAssoc k l).map Prod.fst := by
  induction l with
  | nil => simp [popAssoc]
  | cons hd tl ih =>
    obtain ⟨k₁, v₁⟩ := hd
    simp only [List.map_cons, List.nodup_cons] at hnd
    by_cases hk : k = k₁
    · subst hk
      simpa [popAssoc] using hnd.1
    · simp only [popAssoc, if_neg hk, List.map_cons, List.mem_cons]
      rintro (h | h)
      · exact hk h
      · exact ih hnd.2 h

theorem nodup_keys_popAssoc {α : Type} (k : String) (l : List (String × α))
    (hnd : (l.map Prod.fst).Nodup) : ((popAssoc k l).map Prod.fst).Nodup := by
  induction l with
  | nil => simp [popAssoc]
  | cons hd tl ih =>
    obtain ⟨k₁, v₁⟩ := hd
    simp only [List.map_cons, List.nodup_cons] at hnd
    by_cases hk : k = k₁
    · subst hk
      simpa [popAssoc] using hnd.2
    · simp only [popAssoc, if_neg hk, List.map_cons, List.nodup_cons]
      constructor
      · intro hmem
        exact hnd.1 (keys_popAssoc_sub k k₁ tl hmem)
      · exact ih hnd.2

theorem getSub_resetIndex (m : Manifest) (idx : String) :
    getSub (resetIndex m idx) idx = [] := by
  simp [getSub, resetIndex, assoc_setAssoc_self]

theorem getProcessedFiles_resetIndex (m : Manifest) (idx : String) :
    getProcessedFiles (resetIndex m idx) idx = [] := by
  simp [getProcessedFiles, getSub_resetIndex]

/-- The inconsistency check emits only manifest-save events. -/
theorem inconsistencyCheck_trace_save (m : Manifest) (idx : String)
    (stats : Except String Nat) :
    ∀ e ∈ (inconsistencyCheck m idx stats).2, ∃ p, e = SyncEvent.saveManifest p := by
  match stats with
  | .error s => simp [inconsistencyCheck]
  | .ok c =>
    by_cases h : getProcessedFiles m idx ≠ [] ∧ c = 0
    · simp [inconsistencyCheck, if_pos h]
    · simp [inconsistencyCheck, if_neg h]

/-- The inconsistency check either keeps the manifest or resets the active
index. -/
theorem inconsistencyCheck_manifest (m : Manifest) (idx : String)
    (stats : Except String Nat) :
    (inconsistencyCheck m idx stats).1 = m ∨
      (inconsistencyCheck m idx stats).1 = resetIndex m idx := by
  match stats with
  | .error s => exact Or.inl rfl
  | .ok c =>
    by_cases h : getProcessedFiles m idx ≠ [] ∧ c = 0
    · exact Or.inr (by simp [inconsistencyCheck, if_pos h])
    · exact Or.inl (by simp [inconsistencyCheck, if_neg h])

/-- Explicit form of `passRest` when something changed. -/
theorem passRest_active (m₁ : Manifest) (tr₁ : List SyncEvent) (idx : String)
    (env : SyncEnv)
    (hne : (computeDiffL m₁ idx env.onDisk env.diskHash).modified ++
           (computeDiffL m₁ idx env.onDisk env.diskHash).deleted ≠ []) :
    passRest m₁ tr₁ idx env =
      (let plan := computeDiffL m₁ idx env.onDisk env.diskHash
       let r := embedLoop env idx (plan.newFiles ++ plan.modified)
                  (if plan.deleted = [] then m₁ else removeFiles m₁ idx plan.deleted)
       if r.2.2 then
         { trace := tr₁ ++
             [SyncEvent.deleteByFilename ((plan.modified ++ plan.deleted).map baseName)]
             ++ r.1,
           manifest := r.2.1, aborted := true }
       else
         { trace := tr₁ ++
             [SyncEvent.deleteByFilename ((plan.modified ++ plan.deleted).map baseName)]
             ++ r.1 ++ [SyncEvent.saveManifest r.2.1],
           manifest := r.2.1, aborted := false }) := by
  unfold passRest
  rw [if_neg fun h => hne h.2, if_neg hne]

/-- Explicit form of `passRest` when nothing changed. -/
theorem passRest_noop (m₁ : Manifest) (tr₁ : List SyncEvent) (idx : String)
    (env : SyncEnv)
    (hnew : (computeDiffL m₁ idx env.onDisk env.diskHash).newFiles = [])
    (hmod : (computeDiffL m₁ idx env.onDisk env.diskHash).modified = [])
    (hdel : (computeDiffL m₁ idx env.onDisk env.diskHash).deleted = []) :
    passRest m₁ tr₁ idx env = { trace := tr₁, manifest := m₁, aborted := false } := by
  unfold passRest
  rw [if_pos]
  exact ⟨by rw [hnew, hmod]; rfl, by rw [hmod, hdel]; rfl⟩


/-! ### Lemmas about the text-cleaning transform -/

theorem bool_not_true {b : Bool} (h : (!b) = true) : b = false := by
  simpa using h

theorem noDoubleSpace_cons₂ (c₁ c₂ : Char) (cs : List Char) :
    noDoubleSpace (c₁ :: c₂ :: cs) =
      (!(isSpc c₁ && isSpc c₂) && noDoubleSpace (c₂ :: cs)) := rfl

theorem noDoubleSpace_tail {c : Char} {cs : List Char}
    (h : noDoubleSpace (c :: cs) = true) : noDoubleSpace cs = true := by
  cases cs with
  | nil => rfl
  | cons c₂ r =>
    rw [noDoubleSpace_cons₂, Bool.and_eq_true] at h
    exact h.2

theorem spacesAreBlanks_cons (c : Char) (cs : List Char) :
    spacesAreBlanks (c :: cs) = ((!isSpc c || c == ' ') && spacesAreBlanks cs) := by
  simp [spacesAreBlanks]

/-- Step equations for `collapseAux`. -/
theorem collapseAux_space_true {c : Char} (h : isSpc c = true) (cs : List Char) :
    collapseAux true (c :: cs) = collapseAux true cs := by
  simp [collapseAux, h]

theorem collapseAux_space_false {c : Char} (h : isSpc c = true) (cs : List Char) :
    collapseAux false (c :: cs) = ' ' :: collapseAux true cs := by
  simp [collapseAux, h]

theorem collapseAux_nonspace {c : Char} (h : isSpc c = false) (b : Bool)
    (cs : List Char) : collapseAux b (c :: cs) = c :: collapseAux false cs := by
  cases b <;> simp [collapseAux, h]

/-- Step equations for `dropTrailingSpc`. -/
theorem dropTrailingSpc_cons_nil {cs : List Char} (h : dropTrailingSpc cs = [])
    (c : Char) : dropTrailingSpc (c :: cs) = if isSpc c then [] else [c] := by
  unfold dropTrailingSpc
  rw [h]

theorem dropTrailingSpc_cons₂ {cs : List Char} {d : Char} {t : List Char}
    (h : dropTrailingSpc cs = d :: t) (c : Char) :
    dropTrailingSpc (c :: cs) = c :: d :: t := by
  unfold dropTrailingSpc
  rw [h]

/-- A no-match scan leaves the text unchanged. -/
theorem subAllAux_id (f : List Char → Option (List Char)) :
    ∀ (fuel : Nat) (cs : List Char), cs.length ≤ fuel →
      hasMatch f cs = false → subAllAux f fuel cs = cs := by
  intro fuel
  induction fuel with
  | zero =>
    intro cs hlen _
    rw [List.length_eq_zero.mp (Nat.le_zero.mp hlen)]
    rfl
  | succ n ih =>
    intro cs hlen hm
    cases cs with
    | nil => rfl
    | cons c cs' =>
      have hm' : (f (c :: cs')).isSome = false ∧ hasMatch f cs' = false := by
        simpa [hasMatch] using hm
      have hf : f (c :: cs') = none := by
        cases hq : f (c :: cs') with
        | none => rfl
        | some r => rw [hq] at hm'; simp at hm'
      unfold subAllAux
      rw [hf]
      show c :: subAllAux f n cs' = c :: cs'
      rw [ih cs' (Nat.le_of_succ_le_succ hlen) hm'.2]

theorem subAll_id (f : List Char → Option (List Char)) (cs : List Char)
    (hm : hasMatch f cs = false) : subAll f cs = cs :=
  subAllAux_id f cs.length cs (Nat.le_refl _) hm

theorem spacesAreBlanks_collapseAux :
    ∀ (cs : List Char) (b : Bool), spacesAreBlanks (collapseAux b cs) = true := by
  intro cs
  induction cs with
  | nil => intro b; rfl
  | cons c cs ih =>
    intro b
    by_cases h : isSpc c = true
    · cases b with
      | true =>
        rw [collapseAux_space_true h]
        exact ih true
      | false =>
        rw [collapseAux_space_false h, spacesAreBlanks_cons, ih true]
        decide
    · have h' : isSpc c = false := by simpa using h
      rw [collapseAux_nonspace h', spacesAreBlanks_cons, ih false, h']
      simp

theorem headNotSpc_collapseAux_true :
    ∀ cs : List Char, headNotSpc (collapseAux true cs) = true := by
  intro cs
  induction cs with
  | nil => rfl
  | cons c cs ih =>
    by_cases h : isSpc c = true
    · rw [collapseAux_space_true h]
      exact ih
    · have h' : isSpc c = false := by simpa using h
      rw [collapseAux_nonspace h']
      simp [headNotSpc, h']

theorem noDoubleSpace_collapseAux :
    ∀ (cs : List Char) (b : Bool), noDoubleSpace (collapseAux b cs) = true := by
  intro cs
  induction cs with
  | nil => intro b; rfl
  | cons c cs ih =>
    intro b
    by_cases h : isSpc c = true
    · cases b with
      | true =>
        rw [collapseAux_space_true h]
        exact ih true
      | false =>
        rw [collapseAux_space_false h]
        cases hX : collapseAux true cs with
        | nil => rfl
        | cons c₂ r =>
          have hh := headNotSpc_collapseAux_true cs
          rw [hX] at hh
          simp only [headNotSpc] at hh
          have hnd := ih true
          rw [hX] at hnd
          rw [noDoubleSpace_cons₂, hnd, bool_not_true hh]
          simp
    · have h' : isSpc c = false := by simpa using h
      rw [collapseAux_nonspace h']
      cases hX : collapseAux false cs with
      | nil => rfl
      | cons c₂ r =>
        have hnd := ih false
        rw [hX] at hnd
        rw [noDoubleSpace_cons₂, hnd, h']
        simp

/-- Collapsing is the identity on text that is already collapsed. -/
theorem collapseAux_fix :
    ∀ cs : List Char, spacesAreBlanks cs = true → noDoubleSpace cs = true →
      collapseAux false cs = cs ∧
        (headNotSpc cs = true → collapseAux true cs = cs) := by
  intro cs
  induction cs with
  | nil => intro _ _; exact ⟨rfl, fun _ => rfl⟩
  | cons c cs ih =>
    intro hb hd
    rw [spacesAreBlanks_cons, Bool.and_eq_true] at hb
    have hd' : noDoubleSpace cs = true := noDoubleSpace_tail hd
    constructor
    · by_cases h : isSpc c = true
      · have hc : c = ' ' := by
          rw [h] at hb
          simpa using hb.1
        have hhead : headNotSpc cs = true := by
          cases cs with
          | nil => rfl
          | cons c₂ r =>
            rw [noDoubleSpace_cons₂, Bool.and_eq_true] at hd
            have h1 := hd.1
            rw [h] at h1
            simp only [headNotSpc]
            simpa using h1
        rw [collapseAux_space_false h, (ih hb.2 hd').2 hhead, hc]
      · have h' : isSpc c = false := by simpa using h
        rw [collapseAux_nonspace h', (ih hb.2 hd').1]
    · intro hh
      simp only [headNotSpc] at hh
      have h' : isSpc c = false := bool_not_true hh
      rw [collapseAux_nonspace h', (ih hb.2 hd').1]

theorem noDoubleSpace_dropWhile (p : Char → Bool) :
    ∀ cs : List Char, noDoubleSpace cs = true →
      noDoubleSpace (cs.dropWhile p) = true := by
  intro cs
  induction cs with
  | nil => intro _; rfl
  | cons c cs ih =>
    intro h
    by_cases hp : p c = true
    · rw [List.dropWhile_cons, if_pos hp]
      exact ih (noDoubleSpace_tail h)
    · rw [List.dropWhile_cons, if_neg (by simpa using hp)]
      exact h

theorem blanks_dropWhile (p : Char → Bool) (cs : List Char)
    (h : spacesAreBlanks cs = true) : spacesAreBlanks (cs.dropWhile p) = true := by
  rw [spacesAreBlanks, List.all_eq_true] at h ⊢
  intro x hx
  exact h x ((List.dropWhile_sublist p).mem hx)

theorem headNotSpc_dropWhile_isSpc :
    ∀ cs : List Char, headNotSpc (cs.dropWhile isSpc) = true := by
  intro cs
  induction cs with
  | nil => rfl
  | cons c cs ih =>
    by_cases h : isSpc c = true
    · rw [List.dropWhile_cons, if_pos h]
      exact ih
    · have h' : isSpc c = false := by simpa using h
      rw [List.dropWhile_cons, if_neg (by simp [h'])]
      simp [headNotSpc, h']

theorem dropTrailingSpc_head :
    ∀ (cs : List Char) (c : Char) (r : List Char),
      dropTrailingSpc cs = c :: r → ∃ t, cs = c :: t := by
  intro cs c r h
  cases cs with
  | nil => exact absurd h (by simp [dropTrailingSpc])
  | cons c₁ tl =>
    cases h' : dropTrailingSpc tl with
    | nil =>
      rw [dropTrailingSpc_cons_nil h'] at h
      by_cases hs : isSpc c₁ = true
      · rw [if_pos hs] at h
        exact List.noConfusion h
      · rw [if_neg (by simpa using hs)] at h
        injection h with h1 _
        exact ⟨tl, by rw [h1]⟩
    | cons d t =>
      rw [dropTrailingSpc_cons₂ h'] at h
      injection h with h1 _
      exact ⟨tl, by rw [h1]⟩

theorem mem_dropTrailingSpc :
    ∀ (cs : List Char) (x : Char), x ∈ dropTrailingSpc cs → x ∈ cs := by
  intro cs
  induction cs with
  | nil => intro x hx; simp [dropTrailingSpc] at hx
  | cons c tl ih =>
    intro x hx
    cases h' : dropTrailingSpc tl with
    | nil =>
      rw [dropTrailingSpc_cons_nil h'] at hx
      by_cases hs : isSpc c = true
      · rw [if_pos hs] at hx
        exact absurd hx (by simp)
      · rw [if_neg (by simpa using hs)] at hx
        simp only [List.mem_singleton] at hx
        simp [hx]
    | cons d t =>
      rw [dropTrailingSpc_cons₂ h'] at hx
      rcases List.mem_cons.mp hx with h | h
      · simp [h]
      · exact List.mem_cons_of_mem c (ih x (h' ▸ h))

theorem blanks_dropTrailingSpc (cs : List Char)
    (h : spacesAreBlanks cs = true) : spacesAreBlanks (dropTrailingSpc cs) = true := by
  rw [spacesAreBlanks, List.all_eq_true] at h ⊢
  intro x hx
  exact h x (mem_dropTrailingSpc cs x hx)

theorem noDoubleSpace_dropTrailingSpc :
    ∀ cs : List Char, noDoubleSpace cs = true →
      noDoubleSpace (dropTrailingSpc cs) = true := by
  intro cs
  induction cs with
  | nil => intro _; rfl
  | cons c tl ih =>
    intro h
    cases h' : dropTrailingSpc tl with
    | nil =>
      rw [dropTrailingSpc_cons_nil h']
      by_cases hs : isSpc c = true
      · rw [if_pos hs]; rfl
      · rw [if_neg (by simpa using hs)]; rfl
    | cons c₂ r =>
      rw [dropTrailingSpc_cons₂ h']
      obtain ⟨t, ht⟩ := dropTrailingSpc_head tl c₂ r h'
      have hnd : noDoubleSpace (c₂ :: r) = true := by
        rw [← h']
        exact ih (noDoubleSpace_tail h)
      rw [noDoubleSpace_cons₂, Bool.and_eq_true]
      refine ⟨?_, hnd⟩
      rw [ht, noDoubleSpace_cons₂, Bool.and_eq_true] at h
      exact h.1

theorem dropTrailingSpc_idem :
    ∀ cs : List Char, dropTrailingSpc (dropTrailingSpc cs) = dropTrailingSpc cs := by
  intro cs
  induction cs with
  | nil => rfl
  | cons c tl ih =>
    cases h' : dropTrailingSpc tl with
    | nil =>
      rw [dropTrailingSpc_cons_nil h']
      by_cases hs : isSpc c = true
      · rw [if_pos hs]
        rfl
      · rw [if_neg (by simpa using hs)]
        rw [dropTrailingSpc_cons_nil (show dropTrailingSpc [] = [] from rfl),
          if_neg (by simpa using hs)]
    | cons c₂ r =>
      rw [dropTrailingSpc_cons₂ h']
      have h₂ : dropTrailingSpc (c₂ :: r) = c₂ :: r := by
        rw [← h', ih, h']
      rw [dropTrailingSpc_cons₂ h₂]

theorem stripChars_idem (cs : List Char) :
    stripChars (stripChars cs) = stripChars cs := by
  unfold stripChars
  have hdw : (dropTrailingSpc (cs.dropWhile isSpc)).dropWhile isSpc =
      dropTrailingSpc (cs.dropWhile isSpc) := by
    cases h' : dropTrailingSpc (cs.dropWhile isSpc) with
    | nil => rfl
    | cons c r =>
      obtain ⟨t, ht⟩ := dropTrailingSpc_head _ c r h'
      have hh := headNotSpc_dropWhile_isSpc cs
      rw [ht] at hh
      simp only [headNotSpc] at hh
      rw [List.dropWhile_cons, if_neg (by simp [bool_not_true hh])]
  rw [hdw, dropTrailingSpc_idem]

theorem blanks_stripChars (cs : List Char) (h : spacesAreBlanks cs = true) :
    spacesAreBlanks (stripChars cs) = true :=
  blanks_dropTrailingSpc _ (blanks_dropWhile isSpc cs h)

theorem noDoubleSpace_stripChars (cs : List Char) (h : noDoubleSpace cs = true) :
    noDoubleSpace (stripChars cs) = true :=
  noDoubleSpace_dropTrailingSpc _ (noDoubleSpace_dropWhile isSpc cs h)

/-- The collapse-and-strip tail of the cleaning pipeline is idempotent. -/
theorem stripCollapse_fix (z : List Char) :
    stripChars (collapseAux false (stripChars (collapseAux false z))) =
      stripChars (collapseAux false z) := by
  have hb := blanks_stripChars _ (spacesAreBlanks_collapseAux z false)
  have hd := noDoubleSpace_stripChars _ (noDoubleSpace_collapseAux z false)
  rw [(collapseAux_fix _ hb hd).1, stripChars_idem]

/-! ### Lemmas about manifest operations and the embed loop -/

theorem mem_keys_of_assoc_some {α : Type} {k : String} {v : α} :
    ∀ {l : List (String × α)}, assoc k l = some v → k ∈ l.map Prod.fst := by
  intro l
  induction l with
  | nil => intro h; exact Option.noConfusion h
  | cons hd tl ih =>
    obtain ⟨k₁, v₁⟩ := hd
    intro h
    by_cases hk : k = k₁
    · simp [hk]
    · rw [assoc, if_neg hk] at h
      exact List.mem_cons_of_mem _ (ih h)

theorem getFileHash_updateFileHash_self (m : Manifest) (idx fp h : String) :
    getFileHash (updateFileHash m idx fp h) idx fp = some h := by
  unfold updateFileHash getFileHash getSub
  cases hq : assoc idx m with
  | none => rw [assoc_setAssoc_self]; simp [assoc]
  | some fm => rw [assoc_setAssoc_self]; simp [assoc_setAssoc_self]

theorem getFileHash_updateFileHash_other (m : Manifest) (idx fp h : String)
    {g : String} (hg : g ≠ fp) :
    getFileHash (updateFileHash m idx fp h) idx g = getFileHash m idx g := by
  unfold updateFileHash getFileHash getSub
  cases hq : assoc idx m with
  | none =>
    rw [assoc_setAssoc_self]
    simp [assoc, hg]
  | some fm =>
    rw [assoc_setAssoc_self]
    simp [assoc_setAssoc_other hg]

theorem mem_processed_updateFileHash (m : Manifest) (idx fp h p : String) :
    p ∈ getProcessedFiles (updateFileHash m idx fp h) idx ↔
      p ∈ getProcessedFiles m idx ∨ p = fp := by
  unfold updateFileHash getProcessedFiles getSub
  cases hq : assoc idx m with
  | none =>
    rw [assoc_setAssoc_self]
    simp
  | some fm =>
    rw [assoc_setAssoc_self]
    exact mem_keys_setAssoc fp p h fm

theorem assoc_updateFileHash_other (m : Manifest) (idx fp h : String)
    {other : String} (ho : other ≠ idx) :
    assoc other (updateFileHash m idx fp h) = assoc other m := by
  unfold updateFileHash
  cases assoc idx m with
  | none => exact assoc_setAssoc_other ho _ _
  | some fm => exact assoc_setAssoc_other ho _ _

theorem assoc_removeFiles_other (m : Manifest) (idx : String) (fps : List String)
    {other : String} (ho : other ≠ idx) :
    assoc other (removeFiles m idx fps) = assoc other m := by
  unfold removeFiles
  cases assoc idx m with
  | none => rfl
  | some fm => exact assoc_setAssoc_other ho _ _

theorem assoc_resetIndex_other (m : Manifest) (idx : String)
    {other : String} (ho : other ≠ idx) :
    assoc other (resetIndex m idx) = assoc other m :=
  assoc_setAssoc_other ho _ _

theorem foldl_pop_assoc_of_not_mem :
    ∀ (fps : List String) (fm : FileMap) (p : String), p ∉ fps →
      assoc p (fps.foldl (fun acc q => popAssoc q acc) fm) = assoc p fm := by
  intro fps
  induction fps with
  | nil => intro fm p _; rfl
  | cons q fps ih =>
    intro fm p hp
    have hpq : p ≠ q := fun hh => hp (by simp [hh])
    have hp' : p ∉ fps := fun hh => hp (List.mem_cons_of_mem _ hh)
    show assoc p (fps.foldl (fun acc q => popAssoc q acc) (popAssoc q fm)) = assoc p fm
    rw [ih (popAssoc q fm) p hp', assoc_popAssoc_other hpq]

theorem foldl_pop_mem :
    ∀ (fps : List String) (fm : FileMap), (fm.map Prod.fst).Nodup → ∀ p : String,
      (p ∈ (fps.foldl (fun acc q => popAssoc q acc) fm).map Prod.fst ↔
        p ∈ fm.map Prod.fst ∧ p ∉ fps) := by
  intro fps
  induction fps with
  | nil => intro fm _ p; simp
  | cons q fps ih =>
    intro fm hnd p
    show p ∈ (fps.foldl (fun acc q => popAssoc q acc) (popAssoc q fm)).map Prod.fst ↔ _
    rw [ih (popAssoc q fm) (nodup_keys_popAssoc q fm hnd) p]
    by_cases hpq : p = q
    · subst hpq
      constructor
      · rintro ⟨h1, _⟩
        exact absurd h1 (not_mem_keys_popAssoc_self p fm hnd)
      · rintro ⟨_, h2⟩
        exact absurd (List.mem_cons_self p fps) h2
    · rw [mem_keys_popAssoc_of_ne hpq]
      simp only [List.mem_cons, not_or]
      tauto

theorem processed_removeFiles (m : Manifest) (idx : String) (fps : List String)
    (hnd : (getProcessedFiles m idx).Nodup) (p : String) :
    p ∈ getProcessedFiles (removeFiles m idx fps) idx ↔
      p ∈ getProcessedFiles m idx ∧ p ∉ fps := by
  unfold removeFiles
  cases hq : assoc idx m with
  | none =>
    have : getProcessedFiles m idx = [] := by
      unfold getProcessedFiles getSub
      rw [hq]
      rfl
    simp [this]
  | some fm =>
    have hsub : getSub m idx = fm := by unfold getSub; rw [hq]; rfl
    have hnd' : (fm.map Prod.fst).Nodup := by
      unfold getProcessedFiles at hnd
      rwa [hsub] at hnd
    have hL : getProcessedFiles
        (setAssoc idx (fps.foldl (fun acc q => popAssoc q acc) fm) m) idx =
        (fps.foldl (fun acc q => popAssoc q acc) fm).map Prod.fst := by
      unfold getProcessedFiles getSub
      rw [assoc_setAssoc_self]
      rfl
    rw [hL, foldl_pop_mem fps fm hnd' p]
    unfold getProcessedFiles
    rw [hsub]

theorem getFileHash_removeFiles_of_not_mem (m : Manifest) (idx : String)
    (fps : List String) (p : String) (hp : p ∉ fps) :
    getFileHash (removeFiles m idx fps) idx p = getFileHash m idx p := by
  unfold removeFiles
  cases hq : assoc idx m with
  | none => rfl
  | some fm =>
    unfold getFileHash getSub
    rw [assoc_setAssoc_self, hq]
    exact foldl_pop_assoc_of_not_mem fps fm p hp

/-- Step equations for `embedLoop`. -/
theorem embedLoop_nil (env : SyncEnv) (idx : String) (m : Manifest) :
    embedLoop env idx [] m = ([], m, false) := rfl

theorem embedLoop_cons_skip {env : SyncEnv} {f : String} (h : env.parse f = "")
    (idx : String) (rest : List String) (m : Manifest) :
    embedLoop env idx (f :: rest) m = embedLoop env idx rest m := by
  simp [embedLoop, h]

theorem embedLoop_cons_up {env : SyncEnv} {f : String} (h : ¬env.parse f = "")
    (hu : env.uploadOk f = true) (idx : String) (rest : List String) (m : Manifest) :
    embedLoop env idx (f :: rest) m =
      (SyncEvent.upsert (baseName f) ::
         (embedLoop env idx rest (updateFileHash m idx f (env.diskHash f))).1,
       (embedLoop env idx rest (updateFileHash m idx f (env.diskHash f))).2) := by
  simp [embedLoop, h, hu]

theorem embedLoop_cons_fail {env : SyncEnv} {f : String} (h : ¬env.parse f = "")
    (hu : env.uploadOk f = false) (idx : String) (rest : List String) (m : Manifest) :
    embedLoop env idx (f :: rest) m = ([], m, true) := by
  simp [embedLoop, h, hu]

theorem embedLoop_trace_upserts (env : SyncEnv) (idx : String) :
    ∀ (files : List String) (m : Manifest),
      ∀ e ∈ (embedLoop env idx files m).1, ∃ f, e = SyncEvent.upsert f := by
  intro files
  induction files with
  | nil => intro m e he; exact absurd he (by simp [embedLoop_nil])
  | cons f rest ih =>
    intro m e he
    by_cases hp : env.parse f = ""
    · rw [embedLoop_cons_skip hp] at he
      exact ih m e he
    · by_cases hu : env.uploadOk f = true
      · rw [embedLoop_cons_up hp hu] at he
        rcases List.mem_cons.mp he with h | h
        · exact ⟨baseName f, h⟩
        · exact ih _ e h
      · rw [embedLoop_cons_fail hp (by simpa using hu)] at he
        exact absurd he (by simp)

theorem embedLoop_other_frame (env : SyncEnv) (idx : String) {other : String}
    (ho : other ≠ idx) :
    ∀ (files : List String) (m : Manifest),
      assoc other (embedLoop env idx files m).2.1 = assoc other m := by
  intro files
  induction files with
  | nil => intro m; rfl
  | cons f rest ih =>
    intro m
    by_cases hp : env.parse f = ""
    · rw [embedLoop_cons_skip hp]
      exact ih m
    · by_cases hu : env.uploadOk f = true
      · rw [embedLoop_cons_up hp hu]
        show assoc other (embedLoop env idx rest _).2.1 = _
        rw [ih _, assoc_updateFileHash_other _ _ _ _ ho]
      · rw [embedLoop_cons_fail hp (by simpa using hu)]

theorem embedLoop_processed_sub (env : SyncEnv) (idx : String) :
    ∀ (files : List String) (m : Manifest) (p : String),
      p ∈ getProcessedFiles (embedLoop env idx files m).2.1 idx →
        p ∈ getProcessedFiles m idx ∨ p ∈ files := by
  intro files
  induction files with
  | nil => intro m p hp; exact Or.inl hp
  | cons f rest ih =>
    intro m p hp
    by_cases hpar : env.parse f = ""
    · rw [embedLoop_cons_skip hpar] at hp
      rcases ih m p hp with h | h
      · exact Or.inl h
      · exact Or.inr (List.mem_cons_of_mem _ h)
    · by_cases hu : env.uploadOk f = true
      · rw [embedLoop_cons_up hpar hu] at hp
        rcases ih _ p hp with h | h
        · rcases (mem_processed_updateFileHash m idx f _ p).mp h with h' | h'
          · exact Or.inl h'
          · exact Or.inr (by simp [h'])
        · exact Or.inr (List.mem_cons_of_mem _ h)
      · rw [embedLoop_cons_fail hpar (by simpa using hu)] at hp
        exact Or.inl hp

theorem embedLoop_processed_mono (env : SyncEnv) (idx : String) :
    ∀ (files : List String) (m : Manifest) (p : String),
      p ∈ getProcessedFiles m idx →
        p ∈ getProcessedFiles (embedLoop env idx files m).2.1 idx := by
  intro files
  induction files with
  | nil => intro m p hp; exact hp
  | cons f rest ih =>
    intro m p hp
    by_cases hpar : env.parse f = ""
    · rw [embedLoop_cons_skip hpar]
      exact ih m p hp
    · by_cases hu : env.uploadOk f = true
      · rw [embedLoop_cons_up hpar hu]
        exact ih _ p ((mem_processed_updateFileHash m idx f _ p).mpr (Or.inl hp))
      · rw [embedLoop_cons_fail hpar (by simpa using hu)]
        exact hp

theorem embedLoop_hash_frame (env : SyncEnv) (idx : String) :
    ∀ (files : List String) (m : Manifest) (p : String), p ∉ files →
      getFileHash (embedLoop env idx files m).2.1 idx p = getFileHash m idx p := by
  intro files
  induction files with
  | nil => intro m p _; rfl
  | cons f rest ih =>
    intro m p hp
    have hpf : p ≠ f := fun hh => hp (by simp [hh])
    have hp' : p ∉ rest := fun hh => hp (List.mem_cons_of_mem _ hh)
    by_cases hpar : env.parse f = ""
    · rw [embedLoop_cons_skip hpar]
      exact ih m p hp'
    · by_cases hu : env.uploadOk f = true
      · rw [embedLoop_cons_up hpar hu]
        show getFileHash (embedLoop env idx rest _).2.1 idx p = _
        rw [ih _ p hp', getFileHash_updateFileHash_other m idx f _ hpf]
      · rw [embedLoop_cons_fail hpar (by simpa using hu)]

theorem embedLoop_records (env : SyncEnv) (idx : String) :
    ∀ (files : List String) (m : Manifest) (f : String),
      (embedLoop env idx files m).2.2 = false → f ∈ files → ¬env.parse f = "" →
        getFileHash (embedLoop env idx files m).2.1 idx f =
          some (env.diskHash f) := by
  intro files
  induction files with
  | nil => intro m f _ hf _; exact absurd hf (by simp)
  | cons g rest ih =>
    intro m f hab hf hpar
    by_cases hpg : env.parse g = ""
    · rw [embedLoop_cons_skip hpg] at hab ⊢
      rcases List.mem_cons.mp hf with h | h
      · exact absurd (h ▸ hpar) (by simp [hpg, h])
      · exact ih m f hab h hpar
    · by_cases hu : env.uploadOk g = true
      · rw [embedLoop_cons_up hpg hu] at hab ⊢
        by_cases hfr : f ∈ rest
        · exact ih _ f hab hfr hpar
        · have hfg : f = g := by
            rcases List.mem_cons.mp hf with h | h
            · exact h
            · exact absurd h hfr
          subst hfg
          show getFileHash (embedLoop env idx rest _).2.1 idx f = _
          rw [embedLoop_hash_frame env idx rest _ f hfr,
            getFileHash_updateFileHash_self]
      · rw [embedLoop_cons_fail hpg (by simpa using hu)] at hab
        exact absurd hab (by simp)

theorem embedLoop_processed_record (env : SyncEnv) (idx : String)
    (files : List String) (m : Manifest) (f : String)
    (hab : (embedLoop env idx files m).2.2 = false) (hf : f ∈ files)
    (hpar : ¬env.parse f = "") :
    f ∈ getProcessedFiles (embedLoop env idx files m).2.1 idx := by
  have h := embedLoop_records env idx files m f hab hf hpar
  unfold getFileHash at h
  exact mem_keys_of_assoc_some h

theorem inconsistencyCheck_save_payload (m : Manifest) (idx : String)
    (stats : Except String Nat) :
    ∀ p, SyncEvent.saveManifest p ∈ (inconsistencyCheck m idx stats).2 →
      p = (inconsistencyCheck m idx stats).1 := by
  intro p hp
  match stats with
  | .error s => exact absurd hp (by simp [inconsistencyCheck])
  | .ok c =>
    by_cases h : getProcessedFiles m idx ≠ [] ∧ c = 0
    · rw [inconsistencyCheck, if_pos h] at hp ⊢
      simp only [List.mem_singleton] at hp
      injection hp with h1
      try rw [h1]
    · rw [inconsistencyCheck, if_neg h] at hp
      exact absurd hp (by simp)

/-- General explicit form of `passRest` when something changed. -/
theorem passRest_eq_active (m₁ : Manifest) (tr₁ : List SyncEvent) (idx : String)
    (env : SyncEnv)
    (hne : ¬((computeDiffL m₁ idx env.onDisk env.diskHash).newFiles ++
             (computeDiffL m₁ idx env.onDisk env.diskHash).modified = [] ∧
             (computeDiffL m₁ idx env.onDisk env.diskHash).modified ++
             (computeDiffL m₁ idx env.onDisk env.diskHash).deleted = [])) :
    passRest m₁ tr₁ idx env =
      (let plan := computeDiffL m₁ idx env.onDisk env.diskHash
       let tr₂ := if plan.modified ++ plan.deleted = [] then []
         else [SyncEvent.deleteByFilename ((plan.modified ++ plan.deleted).map baseName)]
       let m₂ := if plan.deleted = [] then m₁ else removeFiles m₁ idx plan.deleted
       let r := embedLoop env idx (plan.newFiles ++ plan.modified) m₂
       if r.2.2 then
         { trace := tr₁ ++ tr₂ ++ r.1, manifest := r.2.1, aborted := true }
       else
         { trace := tr₁ ++ tr₂ ++ r.1 ++ [SyncEvent.saveManifest r.2.1],
           manifest := r.2.1, aborted := false }) := by
  unfold passRest
  rw [if_neg hne]

/-- Membership characterization of the three DIFF sets. -/
theorem computeDiffL_mem (m : Manifest) (idx : String) (onDisk : List String)
    (dh : String → String) (p : String) :
    (p ∈ (computeDiffL m idx onDisk dh).newFiles ↔
      p ∈ onDisk ∧ p ∉ getProcessedFiles m idx) ∧
    (p ∈ (computeDiffL m idx onDisk dh).modified ↔
      p ∈ getProcessedFiles m idx ∧ p ∈ onDisk ∧
        getFileHash m idx p ≠ some (dh p)) ∧
    (p ∈ (computeDiffL m idx onDisk dh).deleted ↔
      p ∈ getProcessedFiles m idx ∧ p ∉ onDisk) := by
  refine ⟨?_, ?_, ?_⟩ <;> simp [computeDiffL, List.mem_filter]

/-- A pass whose inconsistency check fired nothing and whose diff is empty is
a complete no-op. -/
theorem syncPass_noop (m₀ : Manifest) (idx : String) (env : SyncEnv)
    (hc : inconsistencyCheck m₀ idx env.stats = (m₀, []))
    (hnew : (computeDiffL m₀ idx env.onDisk env.diskHash).newFiles = [])
    (hmod : (computeDiffL m₀ idx env.onDisk env.diskHash).modified = [])
    (hdel : (computeDiffL m₀ idx env.onDisk env.diskHash).deleted = []) :
    syncPass m₀ idx env = { trace := [], manifest := m₀, aborted := false } := by
  have h1 : syncPass m₀ idx env = passRest m₀ [] idx env := by
    simp [syncPass, hc]
  rw [h1, passRest_noop m₀ [] idx env hnew hmod hdel]

/-! ## Claim theorems -/

/-- Claim C1: in every sync pass, the DIFF step computes
`new = on_disk ∖ known`, `modified = {f ∈ known ∩ on_disk :
stored fingerprint ≠ freshly computed fingerprint}` and
`deleted = known ∖ on_disk`; in particular, for manifest `{a: h1, b: h2}` and
on-disk files `a` (hashing to `h1`), `b` (hashing to `h3`) and `c`, the sets
are `new = {c}`, `modified = {b}`, `deleted = {}`. -/
theorem diff_sets_correct :
    (∀ (m : Manifest) (idx : String) (onDisk : List String) (dh : String → String)
        (p : String),
      (p ∈ (computeDiffL m idx onDisk dh).newFiles ↔
        p ∈ onDisk ∧ p ∉ getProcessedFiles m idx) ∧
      (p ∈ (computeDiffL m idx onDisk dh).modified ↔
        (p ∈ getProcessedFiles m idx ∧ p ∈ onDisk) ∧
          getFileHash m idx p ≠ some (dh p)) ∧
      (p ∈ (computeDiffL m idx onDisk dh).deleted ↔
        p ∈ getProcessedFiles m idx ∧ p ∉ onDisk)) ∧
    computeDiffL [("idx", [("a", "h1"), ("b", "h2")])] "idx" ["a", "b", "c"]
        (fun p => if p = "a" then "h1" else if p = "b" then "h3" else "hc") =
      { newFiles := ["c"], modified := ["b"], deleted := [] } := by
  constructor
  · intro m idx onDisk dh p
    refine ⟨?_, ?_, ?_⟩ <;> (simp [computeDiffL, List.mem_filter]; try tauto)
  · decide

/-- Claim C6: manifest loading never fails fatally on missing or corrupt
state: a missing file, malformed JSON, and an empty top-level object all yield
a fresh manifest with exactly one empty sub-mapping for the configured index
name, with no save issued and no exception raised. -/
theorem load_manifest_nonfatal (idx : String) :
    loadManifest .missing idx = .ok (freshManifest idx, []) ∧
    loadManifest .unparseable idx = .ok (freshManifest idx, []) ∧
    loadManifest (.parsed (PyJson.dict [])) idx = .ok (freshManifest idx, []) := by
  refine ⟨rfl, rfl, ?_⟩
  simp [loadManifest, setAssoc, freshManifest]

/-- Claim C8: when the on-disk manifest is in the legacy flat schema (its
first value is not a dict) and the configured index name equals the legacy
bucket name `"carbon-rag"`, the duplicate key in the literal
`{"carbon-rag": legacy_data, index_name: {}}` makes the later empty value win:
the migrated and immediately persisted manifest maps `"carbon-rag"` to an
empty sub-mapping, discarding every legacy fingerprint entry. -/
theorem legacy_migration_overwrite (k₀ s₀ : String) (rest : List (String × PyJson)) :
    loadManifest (.parsed (PyJson.dict ((k₀, PyJson.leaf s₀) :: rest))) "carbon-rag" =
      .ok ([("carbon-rag", PyJson.dict [])], [[("carbon-rag", PyJson.dict [])]]) := by
  simp [loadManifest, setAssoc]

/-- Claim C2: if the manifest records at least one processed file and the
stats query reports zero vectors, the pass resets the active index's
sub-mapping to empty and persists that reset immediately, so the subsequent
diff classifies every on-disk file as new; if the stats query raises, the
check leaves the manifest as loaded and the pass continues instead of
aborting. -/
theorem inconsistency_repair_and_error_tolerance :
    (∀ (m : Manifest) (idx : String) (env : SyncEnv),
      env.stats = .ok 0 → getProcessedFiles m idx ≠ [] →
        inconsistencyCheck m idx env.stats =
          (resetIndex m idx, [SyncEvent.saveManifest (resetIndex m idx)]) ∧
        getSub (resetIndex m idx) idx = [] ∧
        (computeDiffL (resetIndex m idx) idx env.onDisk env.diskHash).newFiles =
          env.onDisk) ∧
    (∀ (m : Manifest) (idx : String) (env : SyncEnv) (e : String),
      env.stats = .error e →
        inconsistencyCheck m idx env.stats = (m, []) ∧
        syncPass m idx env = passRest m [] idx env) := by
  constructor
  · intro m idx env hstats hne
    refine ⟨?_, getSub_resetIndex m idx, ?_⟩
    · rw [hstats]
      simp [inconsistencyCheck, hne]
    · simp [computeDiffL, getProcessedFiles_resetIndex]
  · intro m idx env e hstats
    have hc : inconsistencyCheck m idx env.stats = (m, []) := by
      rw [hstats]; rfl
    exact ⟨hc, by simp [syncPass, hc]⟩

/-- Witness for C2 at concrete inputs: a one-entry manifest with a
zero-vector index triggers the reset and makes the on-disk file new; a failing
stats query leaves the manifest as loaded. -/
theorem inconsistency_repair_witness :
    (inconsistencyCheck [("i", [("a", "h")])] "i" (Except.ok 0) =
      (resetIndex [("i", [("a", "h")])] "i",
       [SyncEvent.saveManifest (resetIndex [("i", [("a", "h")])] "i")]) ∧
     getSub (resetIndex [("i", [("a", "h")])] "i") "i" = [] ∧
     (computeDiffL (resetIndex [("i", [("a", "h")])] "i") "i" ["x"]
        (fun _ => "h")).newFiles = ["x"]) ∧
    (inconsistencyCheck [("i", [("a", "h")])] "i" (Except.error "boom") =
      ([("i", [("a", "h")])], []) ∧
     syncPass [("i", [("a", "h")])] "i"
        ⟨["x"], fun _ => "h", Except.error "boom", fun _ => "", fun _ => true⟩ =
       passRest [("i", [("a", "h")])] [] "i"
        ⟨["x"], fun _ => "h", Except.error "boom", fun _ => "", fun _ => true⟩) := by
  have h := inconsistency_repair_and_error_tolerance
  exact ⟨h.1 [("i", [("a", "h")])] "i"
           ⟨["x"], fun _ => "h", Except.ok 0, fun _ => "", fun _ => true⟩ rfl (by decide),
         h.2 [("i", [("a", "h")])] "i"
           ⟨["x"], fun _ => "h", Except.error "boom", fun _ => "", fun _ => true⟩
           "boom" rfl⟩

/-- Claim C3: in every pass whose `modified ∪ deleted` set is non-empty, a
delete request keyed on the base filenames (not the full paths) of
`modified ++ deleted` appears in the trace, and every event before it is a
non-upsert event — in particular the delete precedes every upsert of new
chunks issued in the pass. -/
theorem purge_before_embed (m₀ : Manifest) (idx : String) (env : SyncEnv)
    (m₁ : Manifest) (tr₁ : List SyncEvent) (plan : SyncPlan)
    (hc : inconsistencyCheck m₀ idx env.stats = (m₁, tr₁))
    (hp : computeDiffL m₁ idx env.onDisk env.diskHash = plan)
    (hne : plan.modified ++ plan.deleted ≠ []) :
    ∃ pre post,
      (syncPass m₀ idx env).trace =
        pre ++ SyncEvent.deleteByFilename
          ((plan.modified ++ plan.deleted).map baseName) :: post ∧
      ∀ f, SyncEvent.upsert f ∉ pre := by
  have hpre : ∀ f, SyncEvent.upsert f ∉ tr₁ := by
    intro f hmem
    have hs := inconsistencyCheck_trace_save m₀ idx env.stats
    rw [hc] at hs
    obtain ⟨p, hq⟩ := hs _ hmem
    exact SyncEvent.noConfusion hq
  have hsync : syncPass m₀ idx env = passRest m₁ tr₁ idx env := by
    simp [syncPass, hc]
  rw [hsync, passRest_active m₁ tr₁ idx env (by rw [hp]; exact hne)]
  simp only [hp]
  by_cases hab :
      (embedLoop env idx (plan.newFiles ++ plan.modified)
        (if plan.deleted = [] then m₁ else removeFiles m₁ idx plan.deleted)).2.2 = true
  · rw [if_pos hab]
    refine ⟨tr₁,
      (embedLoop env idx (plan.newFiles ++ plan.modified)
        (if plan.deleted = [] then m₁ else removeFiles m₁ idx plan.deleted)).1,
      ?_, hpre⟩
    simp
  · rw [if_neg hab]
    refine ⟨tr₁,
      (embedLoop env idx (plan.newFiles ++ plan.modified)
        (if plan.deleted = [] then m₁ else removeFiles m₁ idx plan.deleted)).1 ++
        [SyncEvent.saveManifest
          (embedLoop env idx (plan.newFiles ++ plan.modified)
            (if plan.deleted = [] then m₁
             else removeFiles m₁ idx plan.deleted)).2.1],
      ?_, hpre⟩
    simp

/-- Witness for C3: one modified file; the delete on its basename is issued
before its chunks are re-upserted. -/
theorem purge_before_embed_witness :
    ∃ pre post,
      (syncPass [("i", [("d/a.pdf", "h1")])] "i"
        ⟨["d/a.pdf"], fun _ => "h2", Except.ok 5, fun _ => "content",
         fun _ => true⟩).trace =
        pre ++ SyncEvent.deleteByFilename
          (((["d/a.pdf"] : List String) ++ ([] : List String)).map baseName)
          :: post ∧
      ∀ f, SyncEvent.upsert f ∉ pre :=
  purge_before_embed [("i", [("d/a.pdf", "h1")])] "i"
    ⟨["d/a.pdf"], fun _ => "h2", Except.ok 5, fun _ => "content", fun _ => true⟩
    [("i", [("d/a.pdf", "h1")])] []
    { newFiles := [], modified := ["d/a.pdf"], deleted := [] }
    (by decide) (by decide) (by decide)

/-- Counterexample to claim C7 as stated: `_clean_text` is not idempotent.
For the input `"Page..... 3"` the dot-run removal (third substitution) welds
`"Page"` and `" 3"` into `"Page 3"`, which the second substitution of a
second cleaning pass then removes, so `clean(clean(x)) ≠ clean(x)`. -/
theorem clean_text_not_idempotent :
    cleanText (cleanText "Page..... 3") ≠ cleanText "Page..... 3" := by decide

/-- Claim C7 amended: the cleaning transform is idempotent on every input
whose cleaned form contains no residual reference tag, page marker, or run of
five or more dots.  (Unrestricted idempotence fails because an earlier
substitution can splice together a new match for a later one.) -/
theorem clean_text_idempotent_on_stable (x : String)
    (h₁ : hasMatch tagM (cleanText x).data = false)
    (h₂ : hasMatch pageM (cleanText x).data = false)
    (h₃ : hasMatch dotsM (cleanText x).data = false) :
    cleanText (cleanText x) = cleanText x := by
  have hq₁ : hasMatch tagM (cleanList x.data) = false := h₁
  have hq₂ : hasMatch pageM (cleanList x.data) = false := h₂
  have hq₃ : hasMatch dotsM (cleanList x.data) = false := h₃
  show String.mk (cleanList (cleanList x.data)) = String.mk (cleanList x.data)
  have hcore : cleanList (cleanList x.data) = cleanList x.data := by
    conv_lhs => rw [cleanList]
    rw [subAll_id tagM _ hq₁, subAll_id pageM _ hq₂, subAll_id dotsM _ hq₃]
    show stripChars (collapseAux false (cleanList x.data)) = cleanList x.data
    rw [cleanList]
    exact stripCollapse_fix _
  rw [hcore]

/-- Witness for the amended C7 at a concrete input whose cleaned form is
stable. -/
theorem clean_text_idempotent_on_stable_witness :
    cleanText (cleanText "  hello   world  [표 1-2]  ") =
      cleanText "  hello   world  [표 1-2]  " :=
  clean_text_idempotent_on_stable "  hello   world  [표 1-2]  "
    (by decide) (by decide) (by decide)

/-- Counterexample to claim C5 as stated: an error during batch upload is not
caught per-file.  With two new files `f.pdf` and `g.pdf`, both parsing to
non-empty content and with `g.pdf` uploadable, a raised exception while
uploading `f.pdf` aborts the whole pass, so `g.pdf` — although scheduled — is
never upserted. -/
theorem upload_failure_not_isolated :
    "g.pdf" ∈ (computeDiffL [] "i" ["f.pdf", "g.pdf"] (fun _ => "h")).newFiles ∧
    (syncPass [] "i" ⟨["f.pdf", "g.pdf"], fun _ => "h", Except.ok 5,
        fun _ => "content", fun s => decide (s ≠ "f.pdf")⟩).aborted = true ∧
    SyncEvent.upsert "g.pdf" ∉
      (syncPass [] "i" ⟨["f.pdf", "g.pdf"], fun _ => "h", Except.ok 5,
        fun _ => "content", fun s => decide (s ≠ "f.pdf")⟩).trace := by
  decide

/-- Claim C5 amended: only parse failures are isolated per-file.  A file whose
parse yields empty content is skipped and the embed loop behaves exactly as if
it had not been scheduled, so it does not prevent any other file from being
processed; and when every scheduled file's upload succeeds, the loop completes
without aborting and upserts every file whose parse produced content.  (An
upload failure, by contrast, aborts the pass — see the counterexample.) -/
theorem parse_failure_isolated :
    (∀ (env : SyncEnv) (idx : String) (m : Manifest) (l₁ l₂ : List String)
        (f : String), env.parse f = "" →
      embedLoop env idx (l₁ ++ f :: l₂) m = embedLoop env idx (l₁ ++ l₂) m) ∧
    (∀ (env : SyncEnv) (idx : String) (m : Manifest) (files : List String),
      (∀ f ∈ files, env.uploadOk f = true) →
      (embedLoop env idx files m).2.2 = false ∧
      ∀ f ∈ files, ¬env.parse f = "" →
        SyncEvent.upsert (baseName f) ∈ (embedLoop env idx files m).1) := by
  constructor
  · intro env idx m l₁ l₂ f hf
    induction l₁ generalizing m with
    | nil => exact embedLoop_cons_skip hf idx l₂ m
    | cons g l₁ ih =>
      by_cases hpg : env.parse g = ""
      · rw [List.cons_append, embedLoop_cons_skip hpg, List.cons_append,
          embedLoop_cons_skip hpg]
        exact ih m
      · by_cases hu : env.uploadOk g = true
        · rw [List.cons_append, embedLoop_cons_up hpg hu, List.cons_append,
            embedLoop_cons_up hpg hu, ih]
        · rw [List.cons_append, embedLoop_cons_fail hpg (by simpa using hu),
            List.cons_append, embedLoop_cons_fail hpg (by simpa using hu)]
  · intro env idx m files hup
    induction files generalizing m with
    | nil => exact ⟨rfl, by simp⟩
    | cons g rest ih =>
      have hug : env.uploadOk g = true := hup g (by simp)
      have hup' : ∀ f ∈ rest, env.uploadOk f = true :=
        fun f hf => hup f (List.mem_cons_of_mem _ hf)
      by_cases hpg : env.parse g = ""
      · rw [embedLoop_cons_skip hpg]
        obtain ⟨h1, h2⟩ := ih m hup'
        refine ⟨h1, ?_⟩
        intro f hf hpf
        rcases List.mem_cons.mp hf with h | h
        · exact absurd (h ▸ hpf) (by simp [hpg, h])
        · exact h2 f h hpf
      · rw [embedLoop_cons_up hpg hug]
        obtain ⟨h1, h2⟩ := ih (updateFileHash m idx g (env.diskHash g)) hup'
        refine ⟨h1, ?_⟩
        intro f hf hpf
        rcases List.mem_cons.mp hf with h | h
        · subst h
          exact List.mem_cons_self _ _
        · exact List.mem_cons_of_mem _ (h2 f h hpf)

/-- Witness for the amended C5 at concrete inputs: a parse failure in the
middle of the schedule changes nothing, and with all uploads succeeding both
other files are upserted. -/
theorem parse_failure_isolated_witness :
    (embedLoop ⟨["a.pdf", "bad.pdf", "b.pdf"], fun _ => "h", Except.ok 5,
        (fun s => if s = "bad.pdf" then "" else "content"), fun _ => true⟩ "i"
        (["a.pdf"] ++ "bad.pdf" :: ["b.pdf"]) [] =
      embedLoop ⟨["a.pdf", "bad.pdf", "b.pdf"], fun _ => "h", Except.ok 5,
        (fun s => if s = "bad.pdf" then "" else "content"), fun _ => true⟩ "i"
        (["a.pdf"] ++ ["b.pdf"]) []) ∧
    ((embedLoop ⟨["a.pdf", "bad.pdf", "b.pdf"], fun _ => "h", Except.ok 5,
        (fun s => if s = "bad.pdf" then "" else "content"), fun _ => true⟩ "i"
        ["a.pdf", "bad.pdf", "b.pdf"] []).2.2 = false ∧
      ∀ f ∈ ["a.pdf", "bad.pdf", "b.pdf"],
        ¬(fun s => if s = "bad.pdf" then "" else "content") f = "" →
          SyncEvent.upsert (baseName f) ∈
            (embedLoop ⟨["a.pdf", "bad.pdf", "b.pdf"], fun _ => "h", Except.ok 5,
              (fun s => if s = "bad.pdf" then "" else "content"), fun _ => true⟩ "i"
              ["a.pdf", "bad.pdf", "b.pdf"] []).1) :=
  ⟨parse_failure_isolated.1
      ⟨["a.pdf", "bad.pdf", "b.pdf"], fun _ => "h", Except.ok 5,
        (fun s => if s = "bad.pdf" then "" else "content"), fun _ => true⟩ "i" []
      ["a.pdf"] ["b.pdf"] "bad.pdf" (by decide),
   parse_failure_isolated.2
      ⟨["a.pdf", "bad.pdf", "b.pdf"], fun _ => "h", Except.ok 5,
        (fun s => if s = "bad.pdf" then "" else "content"), fun _ => true⟩ "i" []
      ["a.pdf", "bad.pdf", "b.pdf"] (by decide)⟩

/-- Claim C10: after a construction that did not raise, the in-memory manifest
contains a sub-mapping for the configured index name, and the mutating
operations (update, remove, inconsistency reset) preserve that containment. -/
theorem manifest_contains_index_invariant :
    (∀ (content : FileContent) (idx : String) (m : List (String × PyJson))
        (saves : List (List (String × PyJson))),
      loadManifest content idx = .ok (m, saves) → (assoc idx m).isSome = true) ∧
    (∀ (m : Manifest) (idx fp h : String),
      (assoc idx (updateFileHash m idx fp h)).isSome = true) ∧
    (∀ (m : Manifest) (idx : String) (fps : List String),
      (assoc idx m).isSome = true →
        (assoc idx (removeFiles m idx fps)).isSome = true) ∧
    (∀ (m : Manifest) (idx : String),
      (assoc idx (resetIndex m idx)).isSome = true) := by
  refine ⟨?_, ?_, ?_, ?_⟩
  · intro content idx m saves hload
    match content with
    | .missing =>
      injection hload with h
      injection h with h1 _
      rw [← h1]
      simp [freshManifest, assoc]
    | .unparseable =>
      injection hload with h
      injection h with h1 _
      rw [← h1]
      simp [freshManifest, assoc]
    | .parsed (PyJson.leaf s) => exact Except.noConfusion hload
    | .parsed (PyJson.dict []) =>
      injection hload with h
      injection h with h1 _
      rw [← h1]
      simp [setAssoc, assoc]
    | .parsed (PyJson.dict ((k₀, PyJson.leaf s₀) :: rest)) =>
      injection hload with h
      injection h with h1 _
      rw [← h1]
      rw [assoc_setAssoc_self]
      rfl
    | .parsed (PyJson.dict ((k₀, PyJson.dict fm₀) :: rest)) =>
      rw [loadManifest] at hload
      cases hq : assoc idx ((k₀, PyJson.dict fm₀) :: rest) with
      | some v =>
        rw [hq] at hload
        injection hload with h
        injection h with h1 _
        rw [← h1, hq]
        rfl
      | none =>
        rw [hq] at hload
        injection hload with h
        injection h with h1 _
        rw [← h1, assoc_setAssoc_self]
        rfl
  · intro m idx fp h
    unfold updateFileHash
    cases assoc idx m with
    | none => rw [assoc_setAssoc_self]; rfl
    | some fm => rw [assoc_setAssoc_self]; rfl
  · intro m idx fps hsome
    unfold removeFiles
    cases hq : assoc idx m with
    | none => rw [hq] at hsome; exact Bool.noConfusion hsome
    | some fm => rw [assoc_setAssoc_self]; rfl
  · intro m idx
    rw [resetIndex, assoc_setAssoc_self]
    rfl

/-- Witness for C10 at concrete inputs. -/
theorem manifest_contains_index_witness :
    (assoc "i" (freshManifest "i")).isSome = true ∧
    (assoc "i" (updateFileHash [("j", [])] "i" "a.pdf" "h")).isSome = true ∧
    (assoc "i" (removeFiles [("i", [("a.pdf", "h")])] "i" ["a.pdf"])).isSome = true ∧
    (assoc "i" (resetIndex [] "i")).isSome = true :=
  ⟨manifest_contains_index_invariant.1 .missing "i" (freshManifest "i") [] rfl,
   manifest_contains_index_invariant.2.1 [("j", [])] "i" "a.pdf" "h",
   manifest_contains_index_invariant.2.2.1 [("i", [("a.pdf", "h")])] "i" ["a.pdf"]
     (by decide),
   manifest_contains_index_invariant.2.2.2 [] "i"⟩

/-- Claim C9: every manifest mutation of a sync pass — `update_file_hash`,
`remove_files` and the inconsistency-repair reset — changes only the
sub-mapping of the configured index name, and every manifest write issued
during a pass carries every other index's sub-mapping unchanged (save writes
all indices back). -/
theorem manifest_frame_effects :
    (∀ (m : Manifest) (idx fp h other : String), other ≠ idx →
      assoc other (updateFileHash m idx fp h) = assoc other m) ∧
    (∀ (m : Manifest) (idx : String) (fps : List String) (other : String),
      other ≠ idx → assoc other (removeFiles m idx fps) = assoc other m) ∧
    (∀ (m : Manifest) (idx other : String), other ≠ idx →
      assoc other (resetIndex m idx) = assoc other m) ∧
    (∀ (m₀ : Manifest) (idx : String) (env : SyncEnv) (p : Manifest)
        (other : String), other ≠ idx →
      SyncEvent.saveManifest p ∈ (syncPass m₀ idx env).trace →
      assoc other p = assoc other m₀) := by
  refine ⟨fun m idx fp h other ho => assoc_updateFileHash_other m idx fp h ho,
    fun m idx fps other ho => assoc_removeFiles_other m idx fps ho,
    fun m idx other ho => assoc_resetIndex_other m idx ho, ?_⟩
  intro m₀ idx env p other ho hmem
  rcases hc : inconsistencyCheck m₀ idx env.stats with ⟨mc, tr₁⟩
  have hframe_mc : assoc other mc = assoc other m₀ := by
    rcases inconsistencyCheck_manifest m₀ idx env.stats with h | h <;>
      rw [hc] at h <;> simp only at h
    · rw [h]
    · rw [h]
      exact assoc_resetIndex_other m₀ idx ho
  have hsave₁ : ∀ q, SyncEvent.saveManifest q ∈ tr₁ → q = mc := by
    intro q hq
    have := inconsistencyCheck_save_payload m₀ idx env.stats q
    rw [hc] at this
    exact this hq
  have hsync : syncPass m₀ idx env = passRest mc tr₁ idx env := by
    simp [syncPass, hc]
  rw [hsync] at hmem
  by_cases hcond :
      ((computeDiffL mc idx env.onDisk env.diskHash).newFiles ++
        (computeDiffL mc idx env.onDisk env.diskHash).modified = [] ∧
       (computeDiffL mc idx env.onDisk env.diskHash).modified ++
        (computeDiffL mc idx env.onDisk env.diskHash).deleted = [])
  · have heq : passRest mc tr₁ idx env =
        { trace := tr₁, manifest := mc, aborted := false } := by
      unfold passRest
      rw [if_pos hcond]
    rw [heq] at hmem
    simp only at hmem
    rw [hsave₁ p hmem]
    exact hframe_mc
  · rw [passRest_eq_active mc tr₁ idx env hcond] at hmem
    simp only at hmem
    obtain ⟨plan, hplan⟩ :
        ∃ plan, computeDiffL mc idx env.onDisk env.diskHash = plan := ⟨_, rfl⟩
    rw [hplan] at hmem
    obtain ⟨r, hr⟩ : ∃ r, embedLoop env idx (plan.newFiles ++ plan.modified)
        (if plan.deleted = [] then mc else removeFiles mc idx plan.deleted) = r :=
      ⟨_, rfl⟩
    rw [hr] at hmem
    have hframe_m₂ : assoc other
        (if plan.deleted = [] then mc else removeFiles mc idx plan.deleted) =
        assoc other m₀ := by
      by_cases hdel : plan.deleted = []
      · rw [if_pos hdel]
        exact hframe_mc
      · rw [if_neg hdel, assoc_removeFiles_other mc idx plan.deleted ho]
        exact hframe_mc
    have hframe_r : assoc other r.2.1 = assoc other m₀ := by
      rw [← hr, embedLoop_other_frame env idx ho]
      exact hframe_m₂
    have htr₂ : ∀ q, SyncEvent.saveManifest q ∉
        (if plan.modified ++ plan.deleted = [] then ([] : List SyncEvent)
         else [SyncEvent.deleteByFilename ((plan.modified ++ plan.deleted).map baseName)]) := by
      intro q hq
      by_cases hde : plan.modified ++ plan.deleted = []
      · rw [if_pos hde] at hq
        exact absurd hq (by simp)
      · rw [if_neg hde] at hq
        simp only [List.mem_singleton] at hq
        exact SyncEvent.noConfusion hq
    have hupserts : ∀ q, SyncEvent.saveManifest q ∉ r.1 := by
      intro q hq
      rw [← hr] at hq
      obtain ⟨f, hf⟩ := embedLoop_trace_upserts env idx _ _ _ hq
      exact SyncEvent.noConfusion hf
    by_cases hab : r.2.2 = true
    · rw [if_pos hab] at hmem
      simp only [List.mem_append] at hmem
      rcases hmem with (h | h) | h
      · rw [hsave₁ p h]
        exact hframe_mc
      · exact absurd h (htr₂ p)
      · exact absurd h (hupserts p)
    · rw [if_neg hab] at hmem
      simp only [List.mem_append, List.mem_singleton] at hmem
      rcases hmem with ((h | h) | h) | h
      · rw [hsave₁ p h]
        exact hframe_mc
      · exact absurd h (htr₂ p)
      · exact absurd h (hupserts p)
      · injection h with h1
        rw [h1]
        exact hframe_r

/-- Witness for C9 at concrete inputs: updating, removing and resetting index
`"i"` leaves index `"j"`'s entries untouched, and the save issued by a pass
that re-embeds a modified file carries `"j"`'s entries unchanged. -/
theorem manifest_frame_effects_witness :
    assoc "j" (updateFileHash [("i", [("a", "h1")]), ("j", [("z", "hz")])] "i" "a" "h2") =
      assoc "j" [("i", [("a", "h1")]), ("j", [("z", "hz")])] ∧
    assoc "j" (removeFiles [("i", [("a", "h1")]), ("j", [("z", "hz")])] "i" ["a"]) =
      assoc "j" [("i", [("a", "h1")]), ("j", [("z", "hz")])] ∧
    assoc "j" (resetIndex [("i", [("a", "h1")]), ("j", [("z", "hz")])] "i") =
      assoc "j" [("i", [("a", "h1")]), ("j", [("z", "hz")])] ∧
    assoc "j" [("i", [("a", "h2")]), ("j", [("z", "hz")])] =
      assoc "j" [("i", [("a", "h1")]), ("j", [("z", "hz")])] :=
  ⟨manifest_frame_effects.1 [("i", [("a", "h1")]), ("j", [("z", "hz")])] "i" "a" "h2" "j"
     (by decide),
   manifest_frame_effects.2.1 [("i", [("a", "h1")]), ("j", [("z", "hz")])] "i" ["a"] "j"
     (by decide),
   manifest_frame_effects.2.2.1 [("i", [("a", "h1")]), ("j", [("z", "hz")])] "i" "j"
     (by decide),
   manifest_frame_effects.2.2.2 [("i", [("a", "h1")]), ("j", [("z", "hz")])] "i"
     ⟨["a"], fun _ => "h2", Except.ok 5, fun _ => "content", fun _ => true⟩
     [("i", [("a", "h2")]), ("j", [("z", "hz")])] "j" (by decide) (by decide)⟩

/-- Counterexample to claim C4 as stated: a pass whose computed sets are all
empty can still write the manifest file.  With manifest `{i: {a.pdf: h1}}`, an
empty docs directory and a stats query reporting zero vectors, the
inconsistency repair resets the sub-mapping and saves it before the diff; the
diff then comes out empty and the pass early-returns — but a manifest write
already happened in that same pass. -/
theorem noop_pass_writes_manifest :
    ((computeDiffL
        (inconsistencyCheck [("i", [("a.pdf", "h1")])] "i" (Except.ok 0)).1
        "i" [] (fun _ => "h1")).newFiles = [] ∧
     (computeDiffL
        (inconsistencyCheck [("i", [("a.pdf", "h1")])] "i" (Except.ok 0)).1
        "i" [] (fun _ => "h1")).modified = [] ∧
     (computeDiffL
        (inconsistencyCheck [("i", [("a.pdf", "h1")])] "i" (Except.ok 0)).1
        "i" [] (fun _ => "h1")).deleted = []) ∧
    SyncEvent.saveManifest [("i", [])] ∈
      (syncPass [("i", [("a.pdf", "h1")])] "i"
        ⟨[], fun _ => "h1", Except.ok 0, fun _ => "", fun _ => true⟩).trace := by
  decide

/-- Claim C4 amended: (a) when the inconsistency repair did not fire and the
computed sets are all empty, the pass performs no delete, upsert or manifest
write at all (the only write an empty-diff pass can perform is the repair's
own reset, persisted before the diff — see the counterexample); (b) a second
pass run immediately after a completed pass in which every scheduled file
parsed successfully, with no file changes in between and a stats query that
does not re-trigger the repair, is a complete no-op: empty trace (hence zero
upsert/delete calls and no manifest write, leaving the on-disk manifest
byte-identical) and an unchanged in-memory manifest. -/
theorem noop_and_second_pass_idempotent :
    (∀ (m₀ : Manifest) (idx : String) (env : SyncEnv),
      inconsistencyCheck m₀ idx env.stats = (m₀, []) →
      (computeDiffL m₀ idx env.onDisk env.diskHash).newFiles = [] →
      (computeDiffL m₀ idx env.onDisk env.diskHash).modified = [] →
      (computeDiffL m₀ idx env.onDisk env.diskHash).deleted = [] →
      syncPass m₀ idx env = { trace := [], manifest := m₀, aborted := false }) ∧
    (∀ (m₀ : Manifest) (idx : String) (env env' : SyncEnv) (mc : Manifest)
        (tr₁ : List SyncEvent),
      inconsistencyCheck m₀ idx env.stats = (mc, tr₁) →
      (getProcessedFiles m₀ idx).Nodup →
      (syncPass m₀ idx env).aborted = false →
      (∀ f ∈ (computeDiffL mc idx env.onDisk env.diskHash).newFiles ++
             (computeDiffL mc idx env.onDisk env.diskHash).modified,
        ¬env.parse f = "") →
      env'.onDisk = env.onDisk →
      env'.diskHash = env.diskHash →
      inconsistencyCheck (syncPass m₀ idx env).manifest idx env'.stats =
        ((syncPass m₀ idx env).manifest, []) →
      syncPass (syncPass m₀ idx env).manifest idx env' =
        { trace := [], manifest := (syncPass m₀ idx env).manifest,
          aborted := false }) := by
  constructor
  · exact syncPass_noop
  · intro m₀ idx env env' mc tr₁ hc hnd hab hparse hOD hDH hc₂
    obtain ⟨plan, hplan⟩ :
        ∃ plan, computeDiffL mc idx env.onDisk env.diskHash = plan := ⟨_, rfl⟩
    have hndmc : (getProcessedFiles mc idx).Nodup := by
      rcases inconsistencyCheck_manifest m₀ idx env.stats with h | h <;>
        rw [hc] at h <;> simp only at h
      · rw [h]; exact hnd
      · rw [h, getProcessedFiles_resetIndex]; exact List.nodup_nil
    have hsync0 : syncPass m₀ idx env = passRest mc tr₁ idx env := by
      simp [syncPass, hc]
    by_cases hcond : (plan.newFiles ++ plan.modified = [] ∧
        plan.modified ++ plan.deleted = [])
    · -- pass 1 was already a no-op: its manifest is mc and the diff is empty
      have hnew : plan.newFiles = [] := (List.append_eq_nil.mp hcond.1).1
      have hmod : plan.modified = [] := (List.append_eq_nil.mp hcond.1).2
      have hdel : plan.deleted = [] := (List.append_eq_nil.mp hcond.2).2
      have hpr : passRest mc tr₁ idx env =
          { trace := tr₁, manifest := mc, aborted := false } :=
        passRest_noop mc tr₁ idx env (by rw [hplan, hnew]) (by rw [hplan, hmod])
          (by rw [hplan, hdel])
      have hman : (syncPass m₀ idx env).manifest = mc := by
        rw [hsync0, hpr]
      rw [hman] at hc₂ ⊢
      refine syncPass_noop mc idx env' hc₂ ?_ ?_ ?_ <;> rw [hOD, hDH, hplan]
      · exact hnew
      · exact hmod
      · exact hdel
    · -- pass 1 actually changed things; afterwards the manifest mirrors disk
      have hcond' : ¬((computeDiffL mc idx env.onDisk env.diskHash).newFiles ++
             (computeDiffL mc idx env.onDisk env.diskHash).modified = [] ∧
             (computeDiffL mc idx env.onDisk env.diskHash).modified ++
             (computeDiffL mc idx env.onDisk env.diskHash).deleted = []) := by
        rw [hplan]; exact hcond
      rw [passRest_eq_active mc tr₁ idx env hcond'] at hsync0
      simp only at hsync0
      rw [hplan] at hsync0
      obtain ⟨r, hr⟩ : ∃ r, embedLoop env idx (plan.newFiles ++ plan.modified)
          (if plan.deleted = [] then mc else removeFiles mc idx plan.deleted) = r :=
        ⟨_, rfl⟩
      rw [hr] at hsync0
      have habr : r.2.2 = false := by
        by_cases h2 : r.2.2 = true
        · rw [if_pos h2] at hsync0
          rw [hsync0] at hab
          simp only at hab
          exact absurd hab (by simp)
        · simpa using h2
      rw [if_neg (by simp [habr])] at hsync0
      have hman : (syncPass m₀ idx env).manifest = r.2.1 := by
        rw [hsync0]
      have hm₂mem : ∀ p, p ∈ getProcessedFiles
          (if plan.deleted = [] then mc else removeFiles mc idx plan.deleted) idx ↔
          p ∈ getProcessedFiles mc idx ∧ p ∉ plan.deleted := by
        intro p
        by_cases hdel : plan.deleted = []
        · rw [if_pos hdel, hdel]
          simp
        · rw [if_neg hdel]
          exact processed_removeFiles mc idx plan.deleted hndmc p
      have hm₂hash : ∀ p, p ∉ plan.deleted → getFileHash
          (if plan.deleted = [] then mc else removeFiles mc idx plan.deleted) idx p =
          getFileHash mc idx p := by
        intro p hp
        by_cases hdel : plan.deleted = []
        · rw [if_pos hdel]
        · rw [if_neg hdel]
          exact getFileHash_removeFiles_of_not_mem mc idx plan.deleted p hp
      have hF1 : ∀ p ∈ env.onDisk, p ∈ getProcessedFiles r.2.1 idx := by
        intro p hpd
        by_cases hpm : p ∈ getProcessedFiles mc idx
        · by_cases hhash : getFileHash mc idx p = some (env.diskHash p)
          · have hnotdel : p ∉ plan.deleted := by
              intro hmem
              have hchar := ((computeDiffL_mem mc idx env.onDisk env.diskHash p).2.2).mp
                (by rw [hplan]; exact hmem)
              exact hchar.2 hpd
            have hp₂ : p ∈ getProcessedFiles
                (if plan.deleted = [] then mc else removeFiles mc idx plan.deleted)
                idx := (hm₂mem p).mpr ⟨hpm, hnotdel⟩
            rw [← hr]
            exact embedLoop_processed_mono env idx _ _ p hp₂
          · have hpmod : p ∈ plan.modified := by
              rw [← hplan]
              exact ((computeDiffL_mem mc idx env.onDisk env.diskHash p).2.1).mpr
                ⟨hpm, hpd, hhash⟩
            have hsched : p ∈ plan.newFiles ++ plan.modified :=
              List.mem_append_right _ hpmod
            have hpar : ¬env.parse p = "" := hparse p (by rw [hplan]; exact hsched)
            rw [← hr]
            exact embedLoop_processed_record env idx _ _ p (by rw [hr]; exact habr)
              hsched hpar
        · have hpnew : p ∈ plan.newFiles := by
            rw [← hplan]
            exact ((computeDiffL_mem mc idx env.onDisk env.diskHash p).1).mpr
              ⟨hpd, hpm⟩
          have hsched : p ∈ plan.newFiles ++ plan.modified :=
            List.mem_append_left _ hpnew
          have hpar : ¬env.parse p = "" := hparse p (by rw [hplan]; exact hsched)
          rw [← hr]
          exact embedLoop_processed_record env idx _ _ p (by rw [hr]; exact habr)
            hsched hpar
      have hF2 : ∀ p, p ∈ getProcessedFiles r.2.1 idx → p ∈ env.onDisk := by
        intro p hp
        rw [← hr] at hp
        rcases embedLoop_processed_sub env idx _ _ p hp with h | h
        · have h' := (hm₂mem p).mp h
          by_contra hnd2
          have hdelmem : p ∈ plan.deleted := by
            rw [← hplan]
            exact ((computeDiffL_mem mc idx env.onDisk env.diskHash p).2.2).mpr
              ⟨h'.1, hnd2⟩
          exact h'.2 hdelmem
        · rcases List.mem_append.mp h with h' | h'
          · exact (((computeDiffL_mem mc idx env.onDisk env.diskHash p).1).mp
              (by rw [hplan]; exact h')).1
          · exact (((computeDiffL_mem mc idx env.onDisk env.diskHash p).2.1).mp
              (by rw [hplan]; exact h')).2.1
      have hF3 : ∀ p, p ∈ getProcessedFiles r.2.1 idx → p ∈ env.onDisk →
          getFileHash r.2.1 idx p = some (env.diskHash p) := by
        intro p hp hpd
        by_cases hsched : p ∈ plan.newFiles ++ plan.modified
        · have hpar : ¬env.parse p = "" := hparse p (by rw [hplan]; exact hsched)
          rw [← hr]
          exact embedLoop_records env idx _ _ p (by rw [hr]; exact habr) hsched hpar
        · have hfr : getFileHash r.2.1 idx p = getFileHash
              (if plan.deleted = [] then mc else removeFiles mc idx plan.deleted)
              idx p := by
            rw [← hr]
            exact embedLoop_hash_frame env idx _ _ p hsched
          rw [← hr] at hp
          rcases embedLoop_processed_sub env idx _ _ p hp with h | h
          swap
          · exact absurd h hsched
          have h' := (hm₂mem p).mp h
          have hnotmod : p ∉ plan.modified := fun hm =>
            hsched (List.mem_append_right _ hm)
          have hhash : getFileHash mc idx p = some (env.diskHash p) := by
            by_contra hne
            exact hnotmod (by
              rw [← hplan]
              exact ((computeDiffL_mem mc idx env.onDisk env.diskHash p).2.1).mpr
                ⟨h'.1, hpd, hne⟩)
          rw [hfr, hm₂hash p h'.2, hhash]
      have hnew₂ : (computeDiffL r.2.1 idx env'.onDisk env'.diskHash).newFiles = [] := by
        rw [hOD, hDH]
        show (env.onDisk.filter fun p =>
          decide (p ∉ getProcessedFiles r.2.1 idx)) = []
        rw [List.filter_eq_nil_iff]
        intro a ha
        simp only [decide_eq_true_eq]
        exact fun hcon => hcon (hF1 a ha)
      have hmod₂ : (computeDiffL r.2.1 idx env'.onDisk env'.diskHash).modified = [] := by
        rw [hOD, hDH]
        show ((getProcessedFiles r.2.1 idx).filter fun p =>
          decide (p ∈ env.onDisk ∧
            getFileHash r.2.1 idx p ≠ some (env.diskHash p))) = []
        rw [List.filter_eq_nil_iff]
        intro a ha
        simp only [decide_eq_true_eq]
        rintro ⟨h1, h2⟩
        exact h2 (hF3 a ha h1)
      have hdel₂ : (computeDiffL r.2.1 idx env'.onDisk env'.diskHash).deleted = [] := by
        rw [hOD, hDH]
        show ((getProcessedFiles r.2.1 idx).filter fun p =>
          decide (p ∉ env.onDisk)) = []
        rw [List.filter_eq_nil_iff]
        intro a ha
        simp only [decide_eq_true_eq]
        exact fun hcon => hcon (hF2 a ha)
      rw [hman] at hc₂ ⊢
      exact syncPass_noop r.2.1 idx env' hc₂ hnew₂ hmod₂ hdel₂

/-- Witness for the amended C4 at concrete inputs: an up-to-date one-file
manifest makes the pass a complete no-op, and re-running right after yields
the no-op again with the manifest unchanged. -/
theorem noop_and_second_pass_witness :
    syncPass [("i", [("a", "h1")])] "i"
        ⟨["a"], fun _ => "h1", Except.ok 3, fun _ => "x", fun _ => true⟩ =
      { trace := [], manifest := [("i", [("a", "h1")])], aborted := false } ∧
    syncPass (syncPass [("i", [("a", "h1")])] "i"
        ⟨["a"], fun _ => "h1", Except.ok 3, fun _ => "x", fun _ => true⟩).manifest
        "i" ⟨["a"], fun _ => "h1", Except.ok 3, fun _ => "x", fun _ => true⟩ =
      { trace := [],
        manifest := (syncPass [("i", [("a", "h1")])] "i"
          ⟨["a"], fun _ => "h1", Except.ok 3, fun _ => "x", fun _ => true⟩).manifest,
        aborted := false } :=
  ⟨noop_and_second_pass_idempotent.1 [("i", [("a", "h1")])] "i"
     ⟨["a"], fun _ => "h1", Except.ok 3, fun _ => "x", fun _ => true⟩
     (by decide) (by decide) (by decide) (by decide),
   noop_and_second_pass_idempotent.2 [("i", [("a", "h1")])] "i"
     ⟨["a"], fun _ => "h1", Except.ok 3, fun _ => "x", fun _ => true⟩
     ⟨["a"], fun _ => "h1", Except.ok 3, fun _ => "x", fun _ => true⟩
     [("i", [("a", "h1")])] [] (by decide) (by decide) (by decide)
     (by decide) rfl rfl (by decide)⟩

end KETS
